import Mathlib

/-!
Shallow embedding of the `mcp-memory-server` memory-store engine.

The source of truth is the TypeScript implementation:
`store.ts` (retry executor, relevance scorer, FirestoreMemoryStore) and
`embeddings.ts` (embedding providers).  Strings are modelled as lists of
characters, rationals stand in for JS numbers (all constants involved are
exactly representable), timestamps are integer milliseconds, and the
Firestore collection is a list of typed documents.  Store operations are
pure state-passing functions that additionally count the document writes
and batch commits issued to the backend, so that frame conditions
("no write issued") are expressible.

Definitions named `spec...` are NOT translated from the code: they follow
the wording of the natural-language specification and exist only to be
compared against the code-derived definitions.
-/

/-- Strings are modelled as lists of characters. -/
abbrev Str := List Char

/-- JS `s.toLowerCase()`, modelled characterwise. -/
def lowerStr (s : Str) : Str := s.map Char.toLower

/-- Boolean prefix test: does the first list start the second? -/
def prefB : Str → Str → Bool
  | [], _ => true
  | _ :: _, [] => false
  | a :: as, b :: bs => a == b && prefB as bs

/-- JS `hay.includes(needle)`: substring containment.  As in JS, the empty
needle is contained in every string. -/
def containsB : Str → Str → Bool
  | [], needle => needle.isEmpty
  | c :: t, needle => prefB needle (c :: t) || containsB t needle

/-- Accumulator form of whitespace splitting (current word is kept reversed). -/
def splitWordsAux : Str → Str → List Str
  | [], acc => if acc.isEmpty then [] else [acc.reverse]
  | c :: cs, acc =>
    if c.isWhitespace then
      if acc.isEmpty then splitWordsAux cs [] else acc.reverse :: splitWordsAux cs []
    else splitWordsAux cs (c :: acc)

/-- JS `s.split(/\s+/).filter(Boolean)`: the maximal runs of non-whitespace
characters, in order; empty fragments are dropped. -/
def splitWords (s : Str) : List Str := splitWordsAux s []

/-- The best partial-match credit one query word earns against the fact word
set, from the inner loop of `computeRelevance` in `store.ts`: a running
maximum over fact words, taking `|qw|/|fw|` when the fact word contains the
query word and `|fw|/|qw|` when the query word contains the fact word. -/
def bestPartial (qw : Str) (factWords : List Str) : ℚ :=
  factWords.foldl
    (fun best fw =>
      if containsB fw qw then max best ((qw.length : ℚ) / (fw.length : ℚ))
      else if containsB qw fw then max best ((fw.length : ℚ) / (qw.length : ℚ))
      else best)
    0

/-- The word loop of `computeRelevance`: simultaneously counts exact word
matches and accumulates partial credit for the remaining query words.
(The JS code stores the fact words in a `Set`; deduplication changes neither
membership tests nor running maxima, so a plain list is used here.) -/
def matchCounts (queryWords factWords : List Str) : ℕ × ℚ :=
  queryWords.foldl
    (fun p qw =>
      if factWords.contains qw then (p.1 + 1, p.2)
      else (p.1, p.2 + bestPartial qw factWords))
    (0, 0)

/-- `computeRelevance(fact, query, tags)` from `store.ts`: exact substring
match of the lowercased query in the lowercased fact scores 1; otherwise the
query is split into words, scored against the fact words plus lowercased
tags, combined as `(matched/n)*0.8 + (partial/n)*0.4` and clamped at 0.95. -/
def computeRelevance (fact query : Str) (tags : List Str) : ℚ :=
  let factLower := lowerStr fact
  let queryLower := lowerStr query
  if containsB factLower queryLower then 1
  else
    let queryWords := splitWords queryLower
    if queryWords.isEmpty then 0
    else
      let factWords := splitWords factLower ++ tags.map lowerStr
      let counts := matchCounts queryWords factWords
      let wordScore := ((counts.1 : ℚ) / (queryWords.length : ℚ)) * 0.8
      let partialWordScore := (counts.2 / (queryWords.length : ℚ)) * 0.4
      min (wordScore + partialWordScore) 0.95

/-- JS `Math.round(x * 100) / 100` over exact rationals (round half up). -/
def roundTo2 (x : ℚ) : ℚ := ((round (x * 100) : ℤ) : ℚ) / 100

/-- The tag-boost condition of `smartSearch` in `store.ts`: some stored tag
(verbatim, not lowercased) contains the whole lowercased query. -/
def tagBoost (tags : List Str) (query : Str) : Bool :=
  tags.any fun t => containsB t (lowerStr query)

/-- The final relevance `smartSearch` assigns to one memory: the rounded
`computeRelevance` score, boosted by 0.15 (capped at 1 and re-rounded) when
the tag-boost condition holds. -/
def smartRelevance (fact query : Str) (tags : List Str) : ℚ :=
  let r := roundTo2 (computeRelevance fact query tags)
  if tagBoost tags query then roundTo2 (min (r + 0.15) 1) else r

/-- Modelled from the spec (§4.2 step 4), for comparison only: the partial
credit is "the maximum of `len(qw)/len(fw)` over fact words containing the
query word as substring, and `len(fw)/len(qw)` over fact words that are
substrings of the query word". -/
def specBestPartial (qw : Str) (factWords : List Str) : ℚ :=
  (((factWords.filter fun fw => containsB fw qw).map
      fun fw => (qw.length : ℚ) / (fw.length : ℚ)) ++
    ((factWords.filter fun fw => containsB qw fw).map
      fun fw => (fw.length : ℚ) / (qw.length : ℚ))).foldr max 0

/-- Modelled from the spec (§4.2 steps 1-6), for comparison only: the
pre-boost reference score — exact substring match scores 1, otherwise
full-word-match fraction times 0.8 plus partial-credit fraction times 0.4,
clamped at 0.95. -/
def specBase (fact query : Str) (tags : List Str) : ℚ :=
  let factLower := lowerStr fact
  let queryLower := lowerStr query
  if containsB factLower queryLower then 1
  else
    let queryWords := splitWords queryLower
    if queryWords.isEmpty then 0
    else
      let factWords := splitWords factLower ++ tags.map lowerStr
      let fullFrac :=
        ((queryWords.countP fun qw => factWords.contains qw : ℕ) : ℚ) /
          (queryWords.length : ℚ)
      let partialFrac :=
        (((queryWords.filter fun qw => !factWords.contains qw).map
            fun qw => specBestPartial qw factWords).sum) /
          (queryWords.length : ℚ)
      min (fullFrac * 0.8 + partialFrac * 0.4) 0.95

/-- The claim's reference scorer (C3), for comparison only: the reference
base score followed by the claim's post-pass — if any query word appears as
a substring of any tag, boost by 0.15 capped at 1. -/
def specRelevance (fact query : Str) (tags : List Str) : ℚ :=
  let base := specBase fact query tags
  if (splitWords (lowerStr query)).any (fun qw => tags.any fun t => containsB t qw) then
    min (base + 0.15) 1
  else base

/-- The amended reference scorer (C3), for comparison only: the reference
base score rounded to two decimals, boosted by 0.15 (capped at 1 and
re-rounded) when some stored tag contains the whole lowercased query. -/
def specRelevanceAmended (fact query : Str) (tags : List Str) : ℚ :=
  let base := roundTo2 (specBase fact query tags)
  if tags.any (fun t => containsB t (lowerStr query)) then roundTo2 (min (base + 0.15) 1)
  else base

/-- A stored memory document, as decoded by `docToMemory` in `store.ts`.
Timestamps are integer epoch milliseconds; `none` models `null`. -/
structure Mem where
  id : String
  fact : Str
  tags : List Str
  pinned : Bool
  relatedTo : List String
  expiresAt : Option Int
  createdAt : Option Int
  updatedAt : Option Int
deriving Repr, DecidableEq

/-- A memory paired with its `smartSearch` relevance score. -/
structure ScoredMem where
  mem : Mem
  relevance : ℚ
deriving Repr, DecidableEq

/-- The engine state: the backend collection, the whole-collection cache
with its timestamp, and counters of backend mutations issued so far
(`writes` counts document-level write operations, `commits` counts
`batch.commit()` calls, including empty ones). -/
structure Store where
  docs : List Mem
  cache : Option (List Mem)
  cacheTs : Int
  writes : ℕ
  commits : ℕ
deriving Repr, DecidableEq

/-- `CACHE_TTL_MS = 5 * 60 * 1000` from `store.ts`. -/
def CACHE_TTL_MS : Int := 5 * 60 * 1000

/-- `isExpired` from `store.ts`: a null `expiresAt` never expires; otherwise
expired exactly when `expiresAt` is strictly before the current time. -/
def isExpired (m : Mem) (now : Int) : Bool :=
  match m.expiresAt with
  | none => false
  | some e => decide (e < now)

/-- Firestore document lookup by id (ids are unique per collection). -/
def findDoc (docs : List Mem) (id : String) : Option Mem :=
  docs.find? fun m => m.id == id

namespace FirestoreMemoryStore

/-- `getCachedMemories`: reuse the snapshot if it exists and is younger than
the TTL, otherwise re-fetch the whole collection and replace the snapshot. -/
def getCachedMemories (s : Store) (now : Int) : List Mem × Store :=
  match s.cache with
  | some c =>
    if now - s.cacheTs < CACHE_TTL_MS then (c, s)
    else (s.docs, { s with cache := some s.docs, cacheTs := now })
  | none => (s.docs, { s with cache := some s.docs, cacheTs := now })

/-- `invalidateCache`: clear the snapshot and reset its timestamp. -/
def invalidateCache (s : Store) : Store :=
  { s with cache := none, cacheTs := 0 }

/-- Expiry instant computed from an optional TTL in hours (`add`/`addBulk`). -/
def ttlExpiry (ttl_hours : Option Int) (now : Int) : Option Int :=
  match ttl_hours with
  | some h => if 0 < h then some (now + h * 3600000) else none
  | none => none

/-- `add`: lowercases the supplied tags (without dropping any), computes the
optional expiry, appends the document and invalidates the cache.  The new
document id is supplied by the backend and modelled as the `newId` input.
(The model's store has no embedding service, matching the default
constructor argument `embeddings = null`.) -/
def add (s : Store) (now : Int) (newId : String) (fact : Str)
    (tags : Option (List Str)) (pinned : Option Bool) (ttl_hours : Option Int) :
    String × Store :=
  let doc : Mem :=
    { id := newId, fact := fact, tags := (tags.getD []).map lowerStr,
      pinned := pinned.getD false, relatedTo := [],
      expiresAt := ttlExpiry ttl_hours now,
      createdAt := some now, updatedAt := some now }
  (newId, invalidateCache { s with docs := s.docs ++ [doc], writes := s.writes + 1 })

/-- `getById`: null when the document is absent or expired. -/
def getById (s : Store) (now : Int) (id : String) : Option Mem :=
  match findDoc s.docs id with
  | none => none
  | some m => if isExpired m now then none else some m

/-- The `createdAt` sort key of `getAll`/`exportAll`: missing timestamps
sort as 0. -/
def timeOf : Option Int → Int
  | none => 0
  | some t => t

/-- `getAll`: clamp limit to [1, 200] (default 50) and offset to ≥ 0, read
through the cache, drop expired documents, stable-sort newest-first, then
stable-sort pinned-first, and slice. -/
def getAll (s : Store) (now : Int) (limit? offset? : Option Int) : List Mem × Store :=
  let limit := min (max (limit?.getD 50) 1) 200
  let offset := max (offset?.getD 0) 0
  let (allDocs, s1) := getCachedMemories s now
  let filtered := allDocs.filter fun m => !isExpired m now
  let byTime := filtered.mergeSort fun a b =>
    decide (timeOf b.createdAt ≤ timeOf a.createdAt)
  let pinnedFirst := byTime.mergeSort fun a b => a.pinned || !b.pinned
  ((pinnedFirst.drop offset.toNat).take limit.toNat, s1)

/-- `search`: case-insensitive substring match over facts, expired excluded. -/
def search (s : Store) (now : Int) (query : Str) : List Mem × Store :=
  let (allDocs, s1) := getCachedMemories s now
  (((allDocs.filter fun m => !isExpired m now).filter
      fun m => containsB (lowerStr m.fact) (lowerStr query)), s1)

/-- `smartSearch`: score every non-expired memory, keep scores ≥ 0.2
(rounding the kept score to two decimals), apply the tag-boost pass, and
stable-sort descending by relevance. -/
def smartSearch (s : Store) (now : Int) (query : Str) : List ScoredMem × Store :=
  let (allDocs, s1) := getCachedMemories s now
  let scored := (allDocs.filter fun m =>
      !isExpired m now && decide ((0.2 : ℚ) ≤ computeRelevance m.fact query m.tags)).map
    fun m => ScoredMem.mk m (roundTo2 (computeRelevance m.fact query m.tags))
  let boosted := scored.map fun sm =>
    if tagBoost sm.mem.tags query then
      ScoredMem.mk sm.mem (roundTo2 (min (sm.relevance + 0.15) 1))
    else sm
  (boosted.mergeSort fun a b => decide (b.relevance ≤ a.relevance), s1)

/-- `searchByTags`: empty tag list short-circuits to an empty result; at most
30 lowercased tags are sent to the backend `array-contains-any` query;
expired documents are filtered from the response.  (This path does not use
the cache.) -/
def searchByTags (s : Store) (now : Int) (tags : List Str) : List Mem :=
  if tags.isEmpty then []
  else
    let queryTags := (tags.take 30).map lowerStr
    (s.docs.filter fun m => queryTags.any fun t => m.tags.contains t).filter
      fun m => !isExpired m now

/-- Pointwise document update: Firestore's `docRef.update` applied to the
document with the given id (structure updates never change the id). -/
def updateDocs (docs : List Mem) (id : String) (f : Mem → Mem) : List Mem :=
  docs.map fun m => if m.id == id then f m else m

/-- The field merge performed by `update`: absent fields keep their stored
values, supplied tags are lowercased, `updatedAt` is refreshed. -/
def applyUpdate (m : Mem) (fact : Option Str) (tags : Option (List Str))
    (pinned : Option Bool) (now : Int) : Mem :=
  { m with
    fact := fact.getD m.fact,
    tags := match tags with | some ts => ts.map lowerStr | none => m.tags,
    pinned := pinned.getD m.pinned,
    updatedAt := some now }

/-- `update`: throws (models as `.error`) when the id is absent, before any
write; otherwise writes the merged fields, invalidates the cache and
returns the re-fetched document. -/
def update (s : Store) (now : Int) (id : String) (fact : Option Str)
    (tags : Option (List Str)) (pinned : Option Bool) :
    Except String Mem × Store :=
  match findDoc s.docs id with
  | none => (.error s!"Memory with ID {id} not found.", s)
  | some _ =>
    let docs1 := updateDocs s.docs id fun m => applyUpdate m fact tags pinned now
    let s1 := invalidateCache { s with docs := docs1, writes := s.writes + 1 }
    (match findDoc docs1 id with
     | some m => .ok m
     | none => .error "unreachable", s1)

/-- `delete`: returns false (no error) when the id is absent, issuing no
write; otherwise deletes the document and invalidates the cache. -/
def delete (s : Store) (now : Int) (id : String) : Bool × Store :=
  match findDoc s.docs id with
  | none => (false, s)
  | some _ =>
    (true, invalidateCache
      { s with docs := s.docs.filter fun m => !(m.id == id), writes := s.writes + 1 })

/-- `togglePin`: throws when the id is absent; otherwise flips the pinned
flag and returns the re-fetched document.  Faithful to the source, this
operation does NOT invalidate the cache. -/
def togglePin (s : Store) (now : Int) (id : String) : Except String Mem × Store :=
  match findDoc s.docs id with
  | none => (.error s!"Memory with ID {id} not found.", s)
  | some doc =>
    let docs1 := updateDocs s.docs id fun m =>
      { m with pinned := !doc.pinned, updatedAt := some now }
    let s1 := { s with docs := docs1, writes := s.writes + 1 }
    (match findDoc docs1 id with
     | some m => .ok m
     | none => .error "unreachable", s1)

end FirestoreMemoryStore

namespace FirestoreMemoryStore

/-- Bulk-operation result: succeeded/failed counts plus the per-item ids and
error strings. -/
structure BulkResult where
  succeeded : ℕ
  failed : ℕ
  ids : List String
  errors : List String
deriving Repr, DecidableEq

/-- `addBulk`: silently clamps the input to 20 items, stores each item's
tags VERBATIM (this path performs no lowercasing), stages one `batch.set`
per item, then unconditionally calls `batch.commit()` — even for an empty
input — and invalidates the cache.  Backend-minted document ids are modelled
by the `newIds` supply. -/
def addBulk (s : Store) (now : Int) (newIds : List String)
    (inputs : List (Str × Option (List Str) × Option Bool × Option Int)) :
    BulkResult × Store :=
  let clamped := inputs.take 20
  let paired := clamped.zip newIds
  let newDocs := paired.map fun p =>
    { id := p.2, fact := p.1.1, tags := p.1.2.1.getD [],
      pinned := p.1.2.2.1.getD false, relatedTo := [],
      expiresAt := ttlExpiry p.1.2.2.2 now,
      createdAt := some now, updatedAt := some now : Mem }
  let ids := paired.map fun p => p.2
  let s1 := invalidateCache
    { s with docs := s.docs ++ newDocs, writes := s.writes + newDocs.length,
             commits := s.commits + 1 }
  ({ succeeded := ids.length, failed := 0, ids := ids, errors := [] }, s1)

/-- Firestore `FieldValue.arrayUnion(x)`: append unless already present. -/
def arrayUnion (l : List String) (x : String) : List String :=
  if l.contains x then l else l ++ [x]

/-- `link`: requires both documents to exist (error otherwise, before any
write); then one batch updates both sides' `relatedTo` with the symmetric
`arrayUnion` and the cache is invalidated. -/
def link (s : Store) (now : Int) (id1 id2 : String) : Except String Unit × Store :=
  match findDoc s.docs id1 with
  | none => (.error s!"Memory {id1} not found.", s)
  | some _ =>
    match findDoc s.docs id2 with
    | none => (.error s!"Memory {id2} not found.", s)
    | some _ =>
      let docs1 := updateDocs s.docs id1 fun m =>
        { m with relatedTo := arrayUnion m.relatedTo id2, updatedAt := some now }
      let docs2 := updateDocs docs1 id2 fun m =>
        { m with relatedTo := arrayUnion m.relatedTo id1, updatedAt := some now }
      (.ok (), invalidateCache
        { s with docs := docs2, writes := s.writes + 2, commits := s.commits + 1 })

/-- `getRelated`: error when the source id is absent; otherwise resolve each
related id, silently dropping ids that are missing or expired. -/
def getRelated (s : Store) (now : Int) (id : String) : Except String (List Mem) :=
  match findDoc s.docs id with
  | none => .error s!"Memory {id} not found."
  | some doc =>
    .ok (doc.relatedTo.filterMap fun rid =>
      match findDoc s.docs rid with
      | none => none
      | some m => if isExpired m now then none else some m)

end FirestoreMemoryStore

/-- Chunking used by `importAll`: slices of at most `n` (n > 0) elements,
in order. -/
def chunksOf (n : ℕ) (l : List α) : List (List α) :=
  if h : l.isEmpty ∨ n = 0 then []
  else l.take n :: chunksOf n (l.drop n)
termination_by l.length
decreasing_by
  simp only [not_or, List.isEmpty_iff] at h
  have h2 : 0 < n := Nat.pos_of_ne_zero h.2
  have h3 : 0 < l.length := List.length_pos.mpr h.1
  simpa using Nat.sub_lt h3 h2

namespace FirestoreMemoryStore

/-- One record of an import blob (`ExportData.memories[i]`); absent fields
are defaulted by `importAll` itself via `?? ...`. -/
structure ImportMem where
  id : String
  fact : Str
  tags : Option (List Str) := none
  pinned : Option Bool := none
  relatedTo : Option (List String) := none
  expiresAt : Option Int := none
  createdAt : Option Int := none
deriving Repr, DecidableEq

/-- Import mode: merge skips existing ids, replace wipes first. -/
inductive ImportMode where
  | merge
  | replace
deriving Repr, DecidableEq

/-- The document written for one imported record: tags/pinned/relatedTo are
stored verbatim (defaulted when absent, never lowercased), `expiresAt` and
`createdAt` are taken from the record (`createdAt` falls back to the server
clock), `updatedAt` is the server clock. -/
def importDoc (m : ImportMem) (now : Int) : Mem :=
  { id := m.id, fact := m.fact, tags := m.tags.getD [],
    pinned := m.pinned.getD false, relatedTo := m.relatedTo.getD [],
    expiresAt := m.expiresAt,
    createdAt := some (m.createdAt.getD now), updatedAt := some now }

/-- Firestore `batch.set` on a known id: overwrite when present, create
otherwise. -/
def setDoc (docs : List Mem) (d : Mem) : List Mem :=
  if docs.any (fun m => m.id == d.id) then
    docs.map fun m => if m.id == d.id then d else m
  else docs ++ [d]

/-- One chunk of `importAll`: the merge-mode existence pre-check runs
against the state left by earlier chunks; items already present are
reported and skipped, the rest are staged; the chunk's batch is committed
when the GLOBAL id accumulator is non-empty (a quirk of the source, which
tests `ids.length` rather than the chunk's own set count); the cache is
invalidated per chunk. -/
def importChunk (mode : ImportMode) (now : Int)
    (acc : (List String × List String) × Store) (chunk : List ImportMem) :
    (List String × List String) × Store :=
  let st := acc.2
  let step := chunk.foldl
    (fun (p : List String × List String × List Mem) m =>
      if mode = ImportMode.merge && (findDoc st.docs m.id).isSome then
        (p.1, p.2.1 ++ [s!"{m.id}: already exists (skipped)"], p.2.2)
      else (p.1 ++ [m.id], p.2.1, p.2.2 ++ [importDoc m now]))
    ([], [], [])
  let globalIds := acc.1.1 ++ step.1
  let st1 :=
    if globalIds.isEmpty then st
    else { st with docs := step.2.2.foldl setDoc st.docs,
                   writes := st.writes + step.2.2.length,
                   commits := st.commits + 1 }
  ((globalIds, acc.1.2 ++ step.2.1), invalidateCache st1)

/-- `importAll`: replace mode first wipes the whole collection (one batch
commit when it was non-empty); then the records are processed in chunks of
20 as described in `importChunk`. -/
def importAll (s : Store) (now : Int) (data : List ImportMem) (mode : ImportMode) :
    BulkResult × Store :=
  let s0 :=
    if mode = ImportMode.replace then
      if s.docs.isEmpty then { s with docs := [] }
      else { s with docs := [], writes := s.writes + s.docs.length,
                    commits := s.commits + 1 }
    else s
  let r := (chunksOf 20 data).foldl (importChunk mode now) (([], []), s0)
  ({ succeeded := r.1.1.length, failed := r.1.2.length,
     ids := r.1.1, errors := r.1.2 }, r.2)

end FirestoreMemoryStore

/-- A Firestore error as `withRetry` inspects it: an optional gRPC status
code and a message. -/
structure FirestoreError where
  code : Option ℕ
  msg : String
deriving Repr, DecidableEq

/-- `RETRYABLE_CODES = {14 (UNAVAILABLE), 4 (DEADLINE_EXCEEDED)}`. -/
def RETRYABLE_CODES : List ℕ := [14, 4]

/-- `MAX_RETRIES = 3` (so at most 4 attempts). -/
def MAX_RETRIES : ℕ := 3

/-- `BASE_DELAY_MS = 500`. -/
def BASE_DELAY_MS : ℕ := 500

/-- The retry guard of `withRetry`: the error carries a code and the code is
in the retryable set (`code !== undefined && RETRYABLE_CODES.has(code)`). -/
def isRetryable (e : FirestoreError) : Bool :=
  match e.code with
  | some c => RETRYABLE_CODES.contains c
  | none => false

/-- The loop of `withRetry`, starting at a given attempt index.  The action
is modelled as a function from the attempt index to its outcome.  Returns
the final outcome together with the list of backoff delays
(`BASE_DELAY_MS * 2 ^ attempt`) that were awaited. -/
def withRetryFrom (fn : ℕ → Except FirestoreError α) (attempt : ℕ) :
    Except FirestoreError α × List ℕ :=
  match fn attempt with
  | .ok v => (.ok v, [])
  | .error e =>
    if h : attempt < MAX_RETRIES ∧ isRetryable e then
      let rest := withRetryFrom fn (attempt + 1)
      (rest.1, BASE_DELAY_MS * 2 ^ attempt :: rest.2)
    else (.error e, [])
termination_by MAX_RETRIES - attempt
decreasing_by omega

/-- `withRetry`: run the action; on a retryable error below the retry
ceiling wait and try again, otherwise surface the last error unchanged. -/
def withRetry (fn : ℕ → Except FirestoreError α) :
    Except FirestoreError α × List ℕ :=
  withRetryFrom fn 0

namespace OpenAIProvider

/-- `OpenAIProvider.embedBatch`, after the HTTP layer: the response is a
list of `(index, embedding)` entries, sorted by the declared index
(`.sort((a, b) => a.index - b.index)`) and projected to the embeddings. -/
def embedBatch (resp : List (ℕ × α)) : List α :=
  (resp.mergeSort fun a b => decide (a.1 ≤ b.1)).map Prod.snd

end OpenAIProvider

namespace CohereProvider

/-- `CohereProvider.embedBatch`, after the HTTP layer: the code returns
`data.embeddings.float` exactly as the backend ordered it — no index field
is consulted and no re-sorting happens. -/
def embedBatch (resp : List α) : List α := resp

end CohereProvider

/-- Sample document: permanent, unpinned memory with fact "hello". -/
def memHello : Mem :=
  { id := "a", fact := "hello".toList, tags := [], pinned := false,
    relatedTo := [], expiresAt := none, createdAt := some 10, updatedAt := some 10 }

/-- Sample document: permanent memory with fact "world". -/
def memWorld : Mem :=
  { id := "b", fact := "world".toList, tags := [], pinned := false,
    relatedTo := [], expiresAt := none, createdAt := some 5, updatedAt := some 5 }

/-- Sample document whose `expiresAt` is the instant 1000. -/
def memTtl : Mem :=
  { id := "t", fact := "temp".toList, tags := [], pinned := false,
    relatedTo := [], expiresAt := some 1000, createdAt := some 0, updatedAt := some 0 }

/-- A store over the given collection with a cold cache and zeroed counters. -/
def mkStore (docs : List Mem) : Store :=
  { docs := docs, cache := none, cacheTs := 0, writes := 0, commits := 0 }

/-- A store holding `memHello` with a warm (freshly populated) cache. -/
def storeWarm : Store :=
  { docs := [memHello], cache := some [memHello], cacheTs := 0, writes := 0, commits := 0 }

/-- A retryable sample error (gRPC code 14, UNAVAILABLE). -/
def errUnavailable : FirestoreError := { code := some 14, msg := "unavailable" }

/-- A non-retryable sample error (gRPC code 3, INVALID_ARGUMENT). -/
def errInvalid : FirestoreError := { code := some 3, msg := "invalid" }

/-- A sample action that fails twice with a retryable error, then succeeds. -/
def fnFlaky : ℕ → Except FirestoreError ℕ :=
  fun j => if j < 2 then .error errUnavailable else .ok 7

/-! ## Helper lemmas -/

theorem containsB_empty_needle (hay : Str) : containsB hay [] = true := by
  cases hay with
  | nil => rfl
  | cons c t => simp [containsB, prefB]

theorem prefB_length_le : ∀ {needle hay : Str}, prefB needle hay = true →
    needle.length ≤ hay.length := by
  intro needle
  induction needle with
  | nil => simp
  | cons a as ih =>
    intro hay h
    cases hay with
    | nil => simp [prefB] at h
    | cons b bs =>
      simp only [prefB, Bool.and_eq_true] at h
      simpa using ih h.2

theorem containsB_length_le : ∀ {hay needle : Str}, containsB hay needle = true →
    needle.length ≤ hay.length := by
  intro hay
  induction hay with
  | nil =>
    intro needle h
    simp only [containsB, List.isEmpty_iff] at h
    simp [h]
  | cons c t ih =>
    intro needle h
    simp only [containsB, Bool.or_eq_true] at h
    rcases h with h | h
    · exact prefB_length_le h
    · exact le_trans (ih h) (by simp)

theorem mem_of_containsList {l : List String} {a : String} (h : l.contains a = true) :
    a ∈ l :=
  List.mem_of_elem_eq_true h

namespace FirestoreMemoryStore

theorem mem_arrayUnion_self (l : List String) (x : String) : x ∈ arrayUnion l x := by
  unfold arrayUnion
  split
  · next h => exact mem_of_containsList h
  · simp

theorem mem_arrayUnion_of_mem {l : List String} {y : String} (x : String)
    (h : y ∈ l) : y ∈ arrayUnion l x := by
  unfold arrayUnion
  split
  · exact h
  · simp [h]

theorem findDoc_updateDocs (docs : List Mem) (i j : String) (f : Mem → Mem)
    (hf : ∀ m, (f m).id = m.id) :
    findDoc (updateDocs docs i f) j =
      if j = i then (findDoc docs i).map f else findDoc docs j := by
  induction docs with
  | nil => simp [findDoc, updateDocs]
  | cons m t ih =>
    have hhead : (if (m.id == i) = true then f m else m).id = m.id := by
      split <;> simp [hf]
    simp only [findDoc, updateDocs, List.map_cons] at *
    by_cases hmj : m.id = j
    · by_cases hji : j = i
      · rw [if_pos hji, List.find?_cons_of_pos _ (by rw [hhead]; simp [hmj]),
          List.find?_cons_of_pos _ (by simp [hmj, hji])]
        simp [show (m.id == i) = true by simp [hmj, hji]]
      · rw [if_neg hji, List.find?_cons_of_pos _ (by rw [hhead]; simp [hmj]),
          List.find?_cons_of_pos _ (by simp [hmj])]
        simp [show (m.id == i) = false by simp [hmj]; exact hji]
    · by_cases hji : j = i
      · rw [if_pos hji, List.find?_cons_of_neg _ (by rw [hhead]; simp [hmj]),
          List.find?_cons_of_neg _ (by simp [hji ▸ hmj]), ih, if_pos hji]
      · rw [if_neg hji, List.find?_cons_of_neg _ (by rw [hhead]; simp [hmj]),
          List.find?_cons_of_neg _ (by simp [hmj]), ih, if_neg hji]

end FirestoreMemoryStore

/-! ## Claim C2 -/

/-- C2 (code bug): `togglePin` flips the pinned flag (the collection
changes) yet leaves the warm cache snapshot exactly as it was — it is the
one mutator in `store.ts` that never calls `invalidateCache`, so the next
cached read serves the stale snapshot, contradicting the claim that every
mutating operation invalidates the cache before returning. -/
theorem togglePin_keeps_stale_cache :
    (FirestoreMemoryStore.togglePin storeWarm 7 "a").2.cache = storeWarm.cache ∧
    storeWarm.cache = some [memHello] ∧
    (FirestoreMemoryStore.togglePin storeWarm 7 "a").2.docs ≠ storeWarm.docs := by
  refine ⟨by decide, by decide, by decide⟩

/-! ## Claim C9 -/

/-- C9 counterexample: `addBulk([])` does report `succeeded = 0` and
`failed = 0`, but — contrary to the claim — it still performs a batch
commit: the unguarded `await batch.commit()` runs even for the empty batch,
so the backend commit counter increases. -/
theorem addBulk_empty_still_commits :
    (FirestoreMemoryStore.addBulk (mkStore []) 0 [] []).1.succeeded = 0 ∧
    (FirestoreMemoryStore.addBulk (mkStore []) 0 [] []).1.failed = 0 ∧
    (FirestoreMemoryStore.addBulk (mkStore []) 0 [] []).2.commits = 1 := by
  refine ⟨by decide, by decide, by decide⟩

/-- C9 (amended): for every store state, `addBulk` on the empty input list
reports `succeeded = 0` and `failed = 0` and writes no document (the
collection and the document-write counter are unchanged), but it still
issues exactly one (empty) batch commit and invalidates the cache. -/
theorem addBulk_empty_frame (s : Store) (now : Int) (newIds : List String) :
    (FirestoreMemoryStore.addBulk s now newIds []).1 =
      { succeeded := 0, failed := 0, ids := [], errors := [] } ∧
    (FirestoreMemoryStore.addBulk s now newIds []).2.docs = s.docs ∧
    (FirestoreMemoryStore.addBulk s now newIds []).2.writes = s.writes ∧
    (FirestoreMemoryStore.addBulk s now newIds []).2.commits = s.commits + 1 ∧
    (FirestoreMemoryStore.addBulk s now newIds []).2.cache = none := by
  refine ⟨?_, ?_, ?_, ?_, ?_⟩ <;>
    simp [FirestoreMemoryStore.addBulk, FirestoreMemoryStore.invalidateCache]

/-! ## Claim C10 -/

/-- C10: when the target id is absent, `update` and `togglePin` return the
"not found" error and `delete` returns false, and in all three cases the
whole store state — collection, cache, write and commit counters — is
returned unchanged: the existence check precedes any write. -/
theorem notFound_paths_leave_state (s : Store) (now : Int) (i : String)
    (fact? : Option Str) (tags? : Option (List Str)) (pin? : Option Bool)
    (h : findDoc s.docs i = none) :
    FirestoreMemoryStore.update s now i fact? tags? pin? =
      (.error s!"Memory with ID {i} not found.", s) ∧
    FirestoreMemoryStore.togglePin s now i =
      (.error s!"Memory with ID {i} not found.", s) ∧
    FirestoreMemoryStore.delete s now i = (false, s) := by
  refine ⟨?_, ?_, ?_⟩ <;>
    simp [FirestoreMemoryStore.update, FirestoreMemoryStore.togglePin,
      FirestoreMemoryStore.delete, h]

/-- C10 witness: deleting the absent id "z" from a singleton store returns
false and leaves the state untouched. -/
theorem notFound_paths_leave_state_witness :
    FirestoreMemoryStore.update (mkStore [memHello]) 0 "z" none none none =
      (.error "Memory with ID z not found.", mkStore [memHello]) ∧
    FirestoreMemoryStore.delete (mkStore [memHello]) 0 "z" =
      (false, mkStore [memHello]) := by
  have h := notFound_paths_leave_state (mkStore [memHello]) 0 "z" none none none
    (by decide)
  exact ⟨h.1, h.2.2⟩

/-! ## Claim C5 -/

/-- C5 counterexample: a memory whose `expiresAt` equals the current
instant (1000) is, per the claim, "at or before the current time" and must
be treated as absent; the code's `isExpired` uses a strict comparison, so
`getById` still returns it. -/
theorem getById_at_exact_expiry :
    FirestoreMemoryStore.getById (mkStore [memTtl]) 1000 "t" = some memTtl := by
  decide

/-! ## Claim C1 -/

/-- C1 counterexample: `add` keeps a whitespace-only tag (nothing is
dropped on any write path), and `addBulk` stores the tag "AB" verbatim —
uppercase — because the bulk path performs no lowercasing at all. -/
theorem stored_tags_not_normalized :
    ((FirestoreMemoryStore.add (mkStore []) 0 "n" "f".toList
        (some [" ".toList]) none none).2.docs.map Mem.tags) = [[" ".toList]] ∧
    ((FirestoreMemoryStore.addBulk (mkStore []) 0 ["n"]
        [("f".toList, some ["AB".toList], none, none)]).2.docs.map Mem.tags) =
      [["AB".toList]] := by
  refine ⟨by decide, by decide⟩

/-! ## Claim C6 -/

/-- C6: `link(a, b)` returns a "not found" error exactly when at least one
of the two ids is absent, and when both exist the post-state is symmetric:
b is in a's `relatedTo` and a is in b's `relatedTo`. -/
theorem link_errors_iff_and_symmetric (s : Store) (now : Int) (i1 i2 : String) :
    ((∃ e, (FirestoreMemoryStore.link s now i1 i2).1 = .error e) ↔
      (findDoc s.docs i1 = none ∨ findDoc s.docs i2 = none)) ∧
    (∀ m1 m2, findDoc s.docs i1 = some m1 → findDoc s.docs i2 = some m2 →
      ∃ m1' m2',
        findDoc (FirestoreMemoryStore.link s now i1 i2).2.docs i1 = some m1' ∧
        findDoc (FirestoreMemoryStore.link s now i1 i2).2.docs i2 = some m2' ∧
        i2 ∈ m1'.relatedTo ∧ i1 ∈ m2'.relatedTo) := by
  constructor
  · constructor
    · intro ⟨e, he⟩
      by_contra hc
      push_neg at hc
      obtain ⟨h1, h2⟩ := hc
      obtain ⟨m1, hm1⟩ := Option.ne_none_iff_exists'.mp h1
      obtain ⟨m2, hm2⟩ := Option.ne_none_iff_exists'.mp h2
      simp [FirestoreMemoryStore.link, hm1, hm2] at he
    · intro h
      unfold FirestoreMemoryStore.link
      rcases h with h | h
      · simp only [h]
        exact ⟨_, rfl⟩
      · cases hm1 : findDoc s.docs i1 with
        | none => exact ⟨_, rfl⟩
        | some m1 => simp only [h]; exact ⟨_, rfl⟩
  · intro m1 m2 hm1 hm2
    have hf1 : ∀ m : Mem, ({ m with relatedTo := FirestoreMemoryStore.arrayUnion m.relatedTo i2, updatedAt := some now } : Mem).id = m.id := fun _ => rfl
    have hf2 : ∀ m : Mem, ({ m with relatedTo := FirestoreMemoryStore.arrayUnion m.relatedTo i1, updatedAt := some now } : Mem).id = m.id := fun _ => rfl
    unfold FirestoreMemoryStore.link
    simp only [hm1, hm2, FirestoreMemoryStore.invalidateCache]
    by_cases he : i1 = i2
    · subst he
      refine ⟨{ m1 with relatedTo := FirestoreMemoryStore.arrayUnion (FirestoreMemoryStore.arrayUnion m1.relatedTo i1) i1, updatedAt := some now }, { m1 with relatedTo := FirestoreMemoryStore.arrayUnion (FirestoreMemoryStore.arrayUnion m1.relatedTo i1) i1, updatedAt := some now }, ?_, ?_, ?_, ?_⟩
      · rw [FirestoreMemoryStore.findDoc_updateDocs _ _ _ _ hf2, if_pos rfl,
          FirestoreMemoryStore.findDoc_updateDocs _ _ _ _ hf1, if_pos rfl, hm1,
          Option.map_some', Option.map_some']
      · rw [FirestoreMemoryStore.findDoc_updateDocs _ _ _ _ hf2, if_pos rfl,
          FirestoreMemoryStore.findDoc_updateDocs _ _ _ _ hf1, if_pos rfl, hm1,
          Option.map_some', Option.map_some']
      · exact FirestoreMemoryStore.mem_arrayUnion_self _ _
      · exact FirestoreMemoryStore.mem_arrayUnion_self _ _
    · refine ⟨{ m1 with relatedTo := FirestoreMemoryStore.arrayUnion m1.relatedTo i2, updatedAt := some now }, { m2 with relatedTo := FirestoreMemoryStore.arrayUnion m2.relatedTo i1, updatedAt := some now }, ?_, ?_, ?_, ?_⟩
      · rw [FirestoreMemoryStore.findDoc_updateDocs _ _ _ _ hf2, if_neg he,
          FirestoreMemoryStore.findDoc_updateDocs _ _ _ _ hf1, if_pos rfl, hm1,
          Option.map_some']
      · rw [FirestoreMemoryStore.findDoc_updateDocs _ _ _ _ hf2, if_pos rfl,
          FirestoreMemoryStore.findDoc_updateDocs _ _ _ _ hf1,
          if_neg (fun hc => he hc.symm), hm2, Option.map_some']
      · exact FirestoreMemoryStore.mem_arrayUnion_self _ _
      · exact FirestoreMemoryStore.mem_arrayUnion_self _ _

/-- C6 witness: linking the two existing memories "a" and "b" produces a
state where each lists the other. -/
theorem link_errors_iff_and_symmetric_witness :
    ∃ m1' m2',
      findDoc (FirestoreMemoryStore.link (mkStore [memHello, memWorld]) 0
        "a" "b").2.docs "a" = some m1' ∧
      findDoc (FirestoreMemoryStore.link (mkStore [memHello, memWorld]) 0
        "a" "b").2.docs "b" = some m2' ∧
      "b" ∈ m1'.relatedTo ∧ "a" ∈ m2'.relatedTo :=
  (link_errors_iff_and_symmetric (mkStore [memHello, memWorld]) 0 "a" "b").2
    memHello memWorld (by decide) (by decide)

/-! ## Claim C7 -/

theorem withRetryFrom_ok {α} (fn : ℕ → Except FirestoreError α) (attempt : ℕ)
    (v : α) (h : fn attempt = .ok v) :
    withRetryFrom fn attempt = (.ok v, []) := by
  rw [withRetryFrom, h]

theorem withRetryFrom_error {α} (fn : ℕ → Except FirestoreError α) (attempt : ℕ)
    (e : FirestoreError) (h : fn attempt = .error e) :
    withRetryFrom fn attempt =
      if _h : attempt < MAX_RETRIES ∧ isRetryable e = true then
        ((withRetryFrom fn (attempt + 1)).1,
          BASE_DELAY_MS * 2 ^ attempt :: (withRetryFrom fn (attempt + 1)).2)
      else (.error e, []) := by
  rw [withRetryFrom, h]

theorem retry_delay_shift (attempt k : ℕ) :
    BASE_DELAY_MS * 2 ^ attempt ::
      (List.range k).map (fun i => BASE_DELAY_MS * 2 ^ (attempt + 1 + i)) =
    (List.range (k + 1)).map fun i => BASE_DELAY_MS * 2 ^ (attempt + i) := by
  rw [List.range_succ_eq_map, List.map_cons, List.map_map]
  refine congrArg₂ List.cons (by norm_num) ?_
  refine List.map_congr_left fun a _ => ?_
  exact congrArg (fun x => BASE_DELAY_MS * 2 ^ x) (by omega)

theorem withRetryFrom_ok_after {α} (fn : ℕ → Except FirestoreError α) :
    ∀ (k attempt : ℕ) (v : α), attempt + k ≤ MAX_RETRIES →
    (∀ j, attempt ≤ j → j < attempt + k → ∃ e, fn j = .error e ∧ isRetryable e = true) →
    fn (attempt + k) = .ok v →
    withRetryFrom fn attempt =
      (.ok v, (List.range k).map fun i => BASE_DELAY_MS * 2 ^ (attempt + i)) := by
  intro k
  induction k with
  | zero =>
    intro attempt v _ _ hok
    simpa using withRetryFrom_ok fn attempt v (by simpa using hok)
  | succ k ih =>
    intro attempt v hle herr hok
    obtain ⟨e, he, hre⟩ := herr attempt le_rfl (by omega)
    rw [withRetryFrom_error fn attempt e he, dif_pos ⟨by omega, hre⟩]
    have hrest := ih (attempt + 1) v (by omega)
      (fun j hj1 hj2 => herr j (by omega) (by omega))
      (by rw [show attempt + 1 + k = attempt + (k + 1) by omega]; exact hok)
    rw [hrest]
    exact Prod.ext rfl (retry_delay_shift attempt k)

theorem withRetryFrom_exhaust {α} (fn : ℕ → Except FirestoreError α) :
    ∀ (d attempt : ℕ), attempt + d = MAX_RETRIES →
    (∀ j, attempt ≤ j → j < MAX_RETRIES → ∃ e, fn j = .error e ∧ isRetryable e = true) →
    ∀ e3, fn MAX_RETRIES = .error e3 →
    withRetryFrom fn attempt =
      (.error e3, (List.range d).map fun i => BASE_DELAY_MS * 2 ^ (attempt + i)) := by
  intro d
  induction d with
  | zero =>
    intro attempt hd _ e3 he3
    have h1 : fn attempt = .error e3 := by
      rw [show attempt = MAX_RETRIES from by omega]; exact he3
    rw [withRetryFrom_error fn attempt e3 h1, dif_neg (by omega)]
    simp
  | succ d ih =>
    intro attempt hd herr e3 he3
    obtain ⟨e, he, hre⟩ := herr attempt le_rfl (by omega)
    rw [withRetryFrom_error fn attempt e he, dif_pos ⟨by omega, hre⟩]
    have hrest := ih (attempt + 1) (by omega)
      (fun j hj1 hj2 => herr j (by omega) hj2) e3 he3
    rw [hrest]
    exact Prod.ext rfl (retry_delay_shift attempt d)

/-- C7: the retry executor (a) returns the success value when the first
attempt succeeds; (b) propagates a non-retryable (or code-less) first error
unchanged with no retry (no delay is awaited); (c) when the first `k ≤ 3`
attempts fail with retryable codes and attempt `k` succeeds, it returns the
success value after exactly the delays `500·2^0 … 500·2^(k-1)`; (d) when
attempts 0-2 all fail with retryable codes, the attempt-3 error is
surfaced unchanged after the three delays 500, 1000, 2000 ms; (e) a retry
only ever happens when the first error is retryable. -/
theorem withRetry_policy {α} (fn : ℕ → Except FirestoreError α) :
    (∀ v, fn 0 = .ok v → withRetry fn = (.ok v, [])) ∧
    (∀ e, fn 0 = .error e → isRetryable e = false → withRetry fn = (.error e, [])) ∧
    (∀ k v, k ≤ MAX_RETRIES →
      (∀ j, j < k → ∃ e, fn j = .error e ∧ isRetryable e = true) →
      fn k = .ok v →
      withRetry fn = (.ok v, (List.range k).map fun i => BASE_DELAY_MS * 2 ^ i)) ∧
    ((∀ j, j < MAX_RETRIES → ∃ e, fn j = .error e ∧ isRetryable e = true) →
      ∀ e3, fn MAX_RETRIES = .error e3 →
      withRetry fn = (.error e3, [500, 1000, 2000])) ∧
    (∀ e, fn 0 = .error e → (withRetry fn).2 ≠ [] → isRetryable e = true) := by
  refine ⟨?_, ?_, ?_, ?_, ?_⟩
  · intro v h
    exact withRetryFrom_ok fn 0 v h
  · intro e h hre
    rw [withRetry, withRetryFrom_error fn 0 e h, dif_neg (by simp [hre])]
  · intro k v hk herr hok
    have h := withRetryFrom_ok_after fn k 0 v (by omega)
      (fun j _ hj => herr j (by omega)) (by simpa using hok)
    rw [withRetry, h]
    exact Prod.ext rfl (by simp)
  · intro herr e3 he3
    have h := withRetryFrom_exhaust fn MAX_RETRIES 0 (by omega)
      (fun j _ hj => herr j hj) e3 he3
    rw [withRetry, h]
    refine Prod.ext rfl ?_
    show (List.range MAX_RETRIES).map (fun i => BASE_DELAY_MS * 2 ^ (0 + i)) =
      [500, 1000, 2000]
    decide
  · intro e h hne
    rw [withRetry, withRetryFrom_error fn 0 e h] at hne
    by_cases hc : 0 < MAX_RETRIES ∧ isRetryable e = true
    · exact hc.2
    · rw [dif_neg hc] at hne
      simp at hne

/-- C7 witness: an action failing twice with the retryable UNAVAILABLE code
and succeeding on the third attempt returns the success value after the
delays 500 and 1000 ms. -/
theorem withRetry_policy_witness : withRetry fnFlaky = (.ok 7, [500, 1000]) := by
  have h := (withRetry_policy fnFlaky).2.2.1 2 7 (by decide)
    (fun j hj => ⟨errUnavailable, by simp [fnFlaky, hj], by decide⟩)
    (by simp [fnFlaky])
  rw [h]
  refine Prod.ext rfl ?_
  show (List.range 2).map (fun i => BASE_DELAY_MS * 2 ^ i) = [500, 1000]
  decide

/-! ## Claim C8 -/

theorem sorted_perm_eq_of_lt_keys {α : Type _} :
    ∀ {l₂ l₁ : List (ℕ × α)}, l₁.Perm l₂ →
    l₁.Pairwise (fun a b => a.1 ≤ b.1) → l₂.Pairwise (fun a b => a.1 < b.1) →
    l₁ = l₂ := by
  intro l₂
  induction l₂ with
  | nil =>
    intro l₁ hp _ _
    exact hp.eq_nil
  | cons b t₂ ih =>
    intro l₁ hp hs₁ hs₂
    cases l₁ with
    | nil => exact absurd hp.symm.eq_nil (by simp)
    | cons a t₁ =>
      have hab : a = b := by
        by_contra hne
        have hbl : b ∈ a :: t₁ := hp.mem_iff.mpr (by simp)
        have hal : a ∈ b :: t₂ := hp.mem_iff.mp (by simp)
        have hb1 : b ∈ t₁ := by
          rcases hbl with _ | h
          · exact absurd rfl hne
          · assumption
        have ha2 : a ∈ t₂ := by
          rcases hal with _ | h
          · exact absurd rfl (fun hc => hne hc.symm)
          · assumption
        have h1 : a.1 ≤ b.1 := (List.pairwise_cons.mp hs₁).1 b hb1
        have h2 : b.1 < a.1 := (List.pairwise_cons.mp hs₂).1 a ha2
        omega
      subst hab
      have := ih hp.cons_inv (List.pairwise_cons.mp hs₁).2
        (List.pairwise_cons.mp hs₂).2
      rw [this]

theorem enum_pairwise_lt {α : Type _} (l : List α) :
    l.enum.Pairwise (fun a b : ℕ × α => a.1 < b.1) := by
  have h := List.pairwise_lt_range l.length
  rw [← List.enum_map_fst l] at h
  exact (List.pairwise_map.mp h).imp fun hab => hab

/-- C8 (amended): the OpenAI-compatible provider re-sorts the response by
its declared index, so for every input list, every embedding function and
every permutation of the indexed response entries, the i-th returned vector
is the embedding of the i-th submitted text; the Cohere provider, by
contrast, returns the response array exactly in the backend's order (it
performs no re-sorting). -/
theorem embedBatch_openai_resorts {α : Type _} (texts : List Str) (E : Str → α)
    (resp : List (ℕ × α)) (h : resp.Perm (texts.map E).enum) :
    OpenAIProvider.embedBatch resp = texts.map E ∧
    ∀ r : List α, CohereProvider.embedBatch r = r := by
  refine ⟨?_, fun _ => rfl⟩
  unfold OpenAIProvider.embedBatch
  have hperm : (resp.mergeSort fun a b => decide (a.1 ≤ b.1)).Perm
      (texts.map E).enum :=
    (resp.mergeSort_perm fun a b => decide (a.1 ≤ b.1)).trans h
  have hsorted : (resp.mergeSort fun a b => decide (a.1 ≤ b.1)).Pairwise
      (fun a b : ℕ × α => a.1 ≤ b.1) := by
    have hs := @List.sorted_mergeSort (ℕ × α)
      (fun a b => decide (a.1 ≤ b.1))
      (fun a b c hab hbc => by
        simp only [decide_eq_true_eq] at *
        omega)
      (fun a b => by
        simp only [Bool.or_eq_true, decide_eq_true_eq]
        omega)
      resp
    exact hs.imp fun hab => by simpa using hab
  rw [sorted_perm_eq_of_lt_keys hperm hsorted (enum_pairwise_lt (texts.map E)),
    List.enum_map_snd]

/-- C8 witness: for the texts ["a", "bb"] with length-embeddings [1, 2] and
the out-of-order response [(1, 2), (0, 1)], the OpenAI-style provider
returns [1, 2] (re-sorted), and the Cohere-style provider returns any
response list unchanged. -/
theorem embedBatch_openai_resorts_witness :
    OpenAIProvider.embedBatch [(1, 2), (0, 1)] =
      ["a".toList, "bb".toList].map List.length ∧
    ∀ r : List ℕ, CohereProvider.embedBatch r = r :=
  embedBatch_openai_resorts ["a".toList, "bb".toList] List.length
    [(1, 2), (0, 1)] (by decide)

/-- C8 counterexample: the Cohere provider does not re-sort.  With true
embeddings [[0], [1]] (the i-th vector belonging to the i-th text), a
backend response that permutes the two entries is returned permuted, so the
0th returned vector is not the embedding of the 0th submitted text. -/
theorem cohere_embedBatch_keeps_backend_order :
    ([[1], [0]] : List (List ℕ)).Perm [[0], [1]] ∧
    CohereProvider.embedBatch ([[1], [0]] : List (List ℕ)) ≠ [[0], [1]] :=
  ⟨List.Perm.swap _ _ _, by decide⟩

/-! ## Claim C5 (amended) -/

/-- C5 (amended): a memory whose `expiresAt` is non-null and STRICTLY before
the current time is treated as absent by every read operation — `getById`
returns none for it, and `getAll`, `search`, `smartSearch`, `searchByTags`
and `getRelated` exclude it from their results — while a memory with
`expiresAt = none` is never treated as expired (and is returned by
`getById` when present). -/
theorem expired_invisible (s : Store) (now : Int) :
    (∀ i m e, findDoc s.docs i = some m → m.expiresAt = some e → e < now →
      FirestoreMemoryStore.getById s now i = none) ∧
    (∀ i m, findDoc s.docs i = some m → m.expiresAt = none →
      FirestoreMemoryStore.getById s now i = some m) ∧
    (∀ lim off m, m ∈ (FirestoreMemoryStore.getAll s now lim off).1 →
      isExpired m now = false) ∧
    (∀ q m, m ∈ (FirestoreMemoryStore.search s now q).1 →
      isExpired m now = false) ∧
    (∀ q sm, sm ∈ (FirestoreMemoryStore.smartSearch s now q).1 →
      isExpired sm.mem now = false) ∧
    (∀ ts m, m ∈ FirestoreMemoryStore.searchByTags s now ts →
      isExpired m now = false) ∧
    (∀ i ms m, FirestoreMemoryStore.getRelated s now i = .ok ms → m ∈ ms →
      isExpired m now = false) ∧
    (∀ m : Mem, m.expiresAt = none → isExpired m now = false) := by
  refine ⟨?_, ?_, ?_, ?_, ?_, ?_, ?_, ?_⟩
  · intro i m e hm he hlt
    simp only [FirestoreMemoryStore.getById, hm]
    rw [if_pos (by simp [isExpired, he, hlt])]
  · intro i m hm he
    simp only [FirestoreMemoryStore.getById, hm]
    rw [if_neg (by simp [isExpired, he])]
  · intro lim off m hmem
    unfold FirestoreMemoryStore.getAll at hmem
    have h1 := List.take_subset _ _ (by exact hmem)
    have h2 := List.drop_subset _ _ h1
    have h3 := List.mem_mergeSort.mp h2
    have h4 := List.mem_mergeSort.mp h3
    have h5 := List.mem_filter.mp h4
    simpa using h5.2
  · intro q m hmem
    unfold FirestoreMemoryStore.search at hmem
    have h1 := List.mem_filter.mp hmem
    have h2 := List.mem_filter.mp h1.1
    simpa using h2.2
  · intro q sm hmem
    unfold FirestoreMemoryStore.smartSearch at hmem
    have h1 := List.mem_mergeSort.mp hmem
    obtain ⟨x, hx, hxe⟩ := List.mem_map.mp h1
    obtain ⟨m0, hm0, hm0e⟩ := List.mem_map.mp hx
    have h2 := List.mem_filter.mp hm0
    have h3 : isExpired m0 now = false := by
      have := h2.2
      simp only [Bool.and_eq_true, Bool.not_eq_true'] at this
      exact this.1
    have hmm : sm.mem = m0 := by
      subst hxe hm0e
      split <;> rfl
    rw [hmm]
    exact h3
  · intro ts m hmem
    unfold FirestoreMemoryStore.searchByTags at hmem
    split at hmem
    · simp at hmem
    · have h1 := List.mem_filter.mp hmem
      simpa using h1.2
  · intro i ms m hok hmem
    unfold FirestoreMemoryStore.getRelated at hok
    cases hd : findDoc s.docs i with
    | none => simp [hd] at hok
    | some doc =>
      simp only [hd, Except.ok.injEq] at hok
      subst hok
      obtain ⟨rid, _, hrid⟩ := List.mem_filterMap.mp hmem
      cases hf : findDoc s.docs rid with
      | none => simp [hf] at hrid
      | some m' =>
        simp only [hf] at hrid
        by_cases hexp : isExpired m' now = true
        · rw [if_pos hexp] at hrid; simp at hrid
        · rw [if_neg hexp] at hrid
          have hmm : m' = m := by simpa using hrid
          subst hmm
          simpa using hexp
  · intro m he
    simp [isExpired, he]

/-- C5 witness: the memory expiring at instant 1000 is invisible to
`getById` at instant 2000, and the never-expiring `memHello` is returned. -/
theorem expired_invisible_witness :
    FirestoreMemoryStore.getById (mkStore [memTtl]) 2000 "t" = none ∧
    FirestoreMemoryStore.getById (mkStore [memHello]) 2000 "a" = some memHello :=
  ⟨(expired_invisible (mkStore [memTtl]) 2000).1 "t" memTtl 1000 (by decide)
      (by decide) (by decide),
    (expired_invisible (mkStore [memHello]) 2000).2.1 "a" memHello (by decide)
      (by decide)⟩

/-! ## Claim C1 (amended) -/

theorem mem_chunksOf {α : Type _} (n : ℕ) (l : List α) (c : List α)
    (hc : c ∈ chunksOf n l) : ∀ x ∈ c, x ∈ l := by
  rw [chunksOf] at hc
  split at hc
  · simp at hc
  · next h =>
    rcases List.mem_cons.mp hc with hc | hc
    · subst hc
      exact fun x hx => List.take_subset n l hx
    · intro x hx
      have hlen : (l.drop n).length < l.length := by
        simp only [not_or, List.isEmpty_iff] at h
        have h2 : 0 < n := Nat.pos_of_ne_zero h.2
        have h3 : 0 < l.length := List.length_pos.mpr h.1
        simpa using Nat.sub_lt h3 h2
      exact List.drop_subset n l (mem_chunksOf n (l.drop n) c hc x hx)
termination_by l.length
decreasing_by simpa using hlen

namespace FirestoreMemoryStore

theorem mem_setDoc {docs : List Mem} {d m' : Mem} (h : m' ∈ setDoc docs d) :
    m' ∈ docs ∨ m' = d := by
  unfold setDoc at h
  split at h
  · obtain ⟨m0, hm0, hm0e⟩ := List.mem_map.mp h
    by_cases hc : (m0.id == d.id) = true
    · right; rw [← hm0e, if_pos hc]
    · left; rw [← hm0e, if_neg hc]; exact hm0
  · rcases List.mem_append.mp h with h | h
    · exact Or.inl h
    · right; simpa using h

theorem mem_foldl_setDoc :
    ∀ (ds : List Mem) (docs : List Mem) (m' : Mem),
       m' ∈ ds.foldl setDoc docs → m' ∈ docs ∨ m' ∈ ds := by
  intro ds
  induction ds with
  | nil => intro docs m' h; exact Or.inl h
  | cons d t ih =>
    intro docs m' h
    rcases ih (setDoc docs d) m' h with h1 | h1
    · rcases mem_setDoc h1 with h2 | h2
      · exact Or.inl h2
      · exact Or.inr (by simp [h2])
    · exact Or.inr (by simp [h1])

theorem mem_importFold_pending (f : ImportMem → Bool) (g : ImportMem → String)
    (now : Int) :
    ∀ (chunk : List ImportMem) (p : List String × List String × List Mem)
      (d : Mem),
      d ∈ (chunk.foldl
        (fun p m =>
          if f m then (p.1, p.2.1 ++ [g m], p.2.2)
          else (p.1 ++ [m.id], p.2.1, p.2.2 ++ [importDoc m now])) p).2.2 →
      d ∈ p.2.2 ∨ ∃ em ∈ chunk, d = importDoc em now := by
  intro chunk
  induction chunk with
  | nil => intro p d h; exact Or.inl h
  | cons m t ih =>
    intro p d h
    simp only [List.foldl_cons] at h
    by_cases hf : f m = true
    · rw [if_pos hf] at h
      rcases ih _ d h with h1 | h1
      · exact Or.inl h1
      · obtain ⟨em, hem, hde⟩ := h1
        exact Or.inr ⟨em, by simp [hem], hde⟩
    · rw [if_neg hf] at h
      rcases ih _ d h with h1 | h1
      · rcases List.mem_append.mp h1 with h2 | h2
        · exact Or.inl h2
        · exact Or.inr ⟨m, by simp, by simpa using h2⟩
      · obtain ⟨em, hem, hde⟩ := h1
        exact Or.inr ⟨em, by simp [hem], hde⟩

theorem mem_importChunk_docs (mode : ImportMode) (now : Int)
    (acc : (List String × List String) × Store) (chunk : List ImportMem)
    (m' : Mem) (h : m' ∈ (importChunk mode now acc chunk).2.docs) :
    m' ∈ acc.2.docs ∨ ∃ em ∈ chunk, m' = importDoc em now := by
  unfold importChunk at h
  simp only [invalidateCache] at h
  split at h
  · exact Or.inl h
  · rcases mem_foldl_setDoc _ _ _ h with h1 | h1
    · exact Or.inl h1
    · rcases mem_importFold_pending _ _ now chunk ([], [], []) m' h1 with h2 | h2
      · simp at h2
      · exact Or.inr h2

theorem mem_importAll_fold (mode : ImportMode) (now : Int)
    (data : List ImportMem) :
    ∀ (chunks : List (List ImportMem)) (acc : (List String × List String) × Store),
      (∀ c ∈ chunks, ∀ x ∈ c, x ∈ data) →
      ∀ m' ∈ (chunks.foldl (importChunk mode now) acc).2.docs,
        m' ∈ acc.2.docs ∨ ∃ em ∈ data, m' = importDoc em now := by
  intro chunks
  induction chunks with
  | nil => intro acc _ m' h; exact Or.inl h
  | cons c cs ih =>
    intro acc hsub m' h
    rcases ih (importChunk mode now acc c)
        (fun c' hc' => hsub c' (by simp [hc'])) m' h with h1 | h1
    · rcases mem_importChunk_docs mode now acc c m' h1 with h2 | h2
      · exact Or.inl h2
      · obtain ⟨em, hem, hde⟩ := h2
        exact Or.inr ⟨em, hsub c (by simp) em hem, hde⟩
    · exact Or.inr h1

end FirestoreMemoryStore

/-- C1 (amended): how each write path treats supplied tags.  `add` stores
exactly the supplied tag list lowercased (nothing dropped); `update` with a
tags field stores exactly those tags lowercased on the target document (all
other documents are untouched); `addBulk` stores each accepted item's tag
list verbatim (no lowercasing, nothing dropped); every document present
after `importAll` either predates the import or carries some import
record's tag list verbatim. -/
theorem write_path_tags :
    (∀ (s : Store) (now : Int) (newId : String) fact tags pinned ttl,
      ((FirestoreMemoryStore.add s now newId fact tags pinned ttl).2.docs.map
          Mem.tags) =
        s.docs.map Mem.tags ++ [(tags.getD []).map lowerStr]) ∧
    (∀ (s : Store) (now : Int) (i : String) fact? pin? (ts : List Str),
      ∀ m' ∈ (FirestoreMemoryStore.update s now i fact? (some ts) pin?).2.docs,
        m' ∈ s.docs ∨ m'.tags = ts.map lowerStr) ∧
    (∀ (s : Store) (now : Int) (newIds : List String) inputs,
      ((FirestoreMemoryStore.addBulk s now newIds inputs).2.docs.map Mem.tags) =
        s.docs.map Mem.tags ++
          ((inputs.take 20).zip newIds).map fun p => p.1.2.1.getD []) ∧
    (∀ (s : Store) (now : Int) (data : List FirestoreMemoryStore.ImportMem) mode,
      ∀ m' ∈ (FirestoreMemoryStore.importAll s now data mode).2.docs,
        m' ∈ s.docs ∨ ∃ em ∈ data, m'.tags = em.tags.getD []) := by
  refine ⟨?_, ?_, ?_, ?_⟩
  · intro s now newId fact tags pinned ttl
    simp [FirestoreMemoryStore.add, FirestoreMemoryStore.invalidateCache]
  · intro s now i fact? pin? ts m' hm'
    unfold FirestoreMemoryStore.update at hm'
    cases hd : findDoc s.docs i with
    | none => rw [hd] at hm'; exact Or.inl hm'
    | some m0 =>
      simp only [hd, FirestoreMemoryStore.invalidateCache] at hm'
      obtain ⟨m1, hm1, hm1e⟩ := List.mem_map.mp hm'
      by_cases hc : (m1.id == i) = true
      · right
        rw [← hm1e, if_pos hc]
        rfl
      · left
        rw [← hm1e, if_neg hc]
        exact hm1
  · intro s now newIds inputs
    simp [FirestoreMemoryStore.addBulk, FirestoreMemoryStore.invalidateCache,
      List.map_map, Function.comp]
  · intro s now data mode m' hm'
    unfold FirestoreMemoryStore.importAll at hm'
    simp only [] at hm'
    have hsub : ∀ c ∈ chunksOf 20 data, ∀ x ∈ c, x ∈ data :=
      fun c hc => mem_chunksOf 20 data c hc
    have h := FirestoreMemoryStore.mem_importAll_fold mode now data
      (chunksOf 20 data) _ hsub m' hm'
    rcases h with h | h
    · split at h
      · split at h
        · simp at h
        · simp at h
      · exact Or.inl h
    · obtain ⟨em, hem, hde⟩ := h
      exact Or.inr ⟨em, hem, by rw [hde]; rfl⟩

/-- C1 witness: updating memory "a" with tags ["X"] leaves every resulting
document either untouched or carrying exactly the lowercased tags ["x"]. -/
theorem write_path_tags_witness :
    ({ memHello with tags := ["x".toList], updatedAt := some 5 } : Mem) ∈
        (mkStore [memHello]).docs ∨
      ({ memHello with tags := ["x".toList], updatedAt := some 5 } : Mem).tags =
        ["X".toList].map lowerStr :=
  write_path_tags.2.1 (mkStore [memHello]) 5 "a" none none ["X".toList]
    { memHello with tags := ["x".toList], updatedAt := some 5 } (by decide)

/-! ## Claim C4 -/

/-- C4 (code bug): `smartSearch` with the empty query does NOT return the
empty list.  Because JS `fact.includes("")` is true for every fact, the
exact-match short-circuit fires and every non-expired memory scores 1.0, so
a store holding one memory returns that memory — the `queryWords.length
=== 0` branch meant to score empty queries as 0 is unreachable for the
empty query, and the repo's own test expects `[]` here. -/
theorem smartSearch_empty_query_returns_all :
    (FirestoreMemoryStore.smartSearch (mkStore [memHello]) 0 []).1 =
      [ScoredMem.mk memHello 1] := by
  have hrel : computeRelevance memHello.fact [] memHello.tags = 1 := by
    unfold computeRelevance
    rw [if_pos]
    exact containsB_empty_needle _
  unfold FirestoreMemoryStore.smartSearch FirestoreMemoryStore.getCachedMemories
  simp only [mkStore, List.filter_cons, List.filter_nil]
  rw [if_pos]
  · simp only [List.map_cons, List.map_nil]
    rw [if_neg (by simp [tagBoost, memHello])]
    have hr2 : roundTo2 (computeRelevance memHello.fact [] memHello.tags) = 1 := by
      rw [hrel]
      norm_num [roundTo2, round_eq]
    rw [hr2]
    simp [List.mergeSort]
  · rw [hrel]
    simp [isExpired, memHello]
    norm_num

/-! ## Claim C3 -/

theorem foldr_max_nonneg (l : List ℚ) : 0 ≤ l.foldr max 0 := by
  induction l with
  | nil => simp
  | cons a t ih => exact le_max_of_le_right ih

theorem foldr_max_init (l : List ℚ) (c : ℚ) (hc : 0 ≤ c) :
    l.foldr max c = max (l.foldr max 0) c := by
  induction l with
  | nil => simp [max_eq_right hc]
  | cons a t ih => simp [List.foldr_cons, ih, max_assoc]

theorem containsB_antisymm_length {a b : Str} (h1 : containsB a b = true)
    (h2 : containsB b a = true) : a.length = b.length :=
  le_antisymm (containsB_length_le h2) (containsB_length_le h1)

theorem bestPartial_foldl_general (qw : Str) :
    ∀ (l : List Str) (acc : ℚ), 0 ≤ acc →
      l.foldl (fun best fw =>
        if containsB fw qw then max best ((qw.length : ℚ) / (fw.length : ℚ))
        else if containsB qw fw then max best ((fw.length : ℚ) / (qw.length : ℚ))
        else best) acc =
      max acc ((l.map fun fw =>
        if containsB fw qw then (qw.length : ℚ) / (fw.length : ℚ)
        else if containsB qw fw then (fw.length : ℚ) / (qw.length : ℚ)
        else 0).foldr max 0) := by
  intro l
  induction l with
  | nil =>
    intro acc hacc
    simp [max_eq_left hacc]
  | cons fw t ih =>
    intro acc hacc
    simp only [List.foldl_cons, List.map_cons, List.foldr_cons]
    have hstep : (if containsB fw qw then
          max acc ((qw.length : ℚ) / (fw.length : ℚ))
        else if containsB qw fw then
          max acc ((fw.length : ℚ) / (qw.length : ℚ))
        else acc) =
        max acc (if containsB fw qw then (qw.length : ℚ) / (fw.length : ℚ)
          else if containsB qw fw then (fw.length : ℚ) / (qw.length : ℚ)
          else 0) := by
      split
      · rfl
      · split
        · rfl
        · simp [max_eq_left hacc]
    rw [hstep, ih _ (le_trans hacc (le_max_left _ _)), max_assoc]

theorem foldr_max_split (qw : Str) :
    ∀ l : List Str,
      ((l.map fun fw =>
        if containsB fw qw then (qw.length : ℚ) / (fw.length : ℚ)
        else if containsB qw fw then (fw.length : ℚ) / (qw.length : ℚ)
        else 0).foldr max 0) =
      max (((l.filter fun fw => containsB fw qw).map
          fun fw => (qw.length : ℚ) / (fw.length : ℚ)).foldr max 0)
        (((l.filter fun fw => containsB qw fw).map
          fun fw => (fw.length : ℚ) / (qw.length : ℚ)).foldr max 0) := by
  intro l
  induction l with
  | nil => simp
  | cons fw t ih =>
    simp only [List.map_cons, List.foldr_cons, List.filter_cons]
    by_cases hA : containsB fw qw = true
    · by_cases hB : containsB qw fw = true
      · have hlen : fw.length = qw.length := containsB_antisymm_length hA hB
        have heq : (qw.length : ℚ) / (fw.length : ℚ) =
            (fw.length : ℚ) / (qw.length : ℚ) := by rw [hlen]
        rw [if_pos hA, if_pos hA, if_pos hB]
        simp only [List.map_cons, List.foldr_cons]
        rw [ih, max_max_max_comm, ← heq, max_self]
      · rw [if_pos hA, if_pos hA, if_neg hB]
        simp only [List.map_cons, List.foldr_cons]
        rw [ih, max_assoc]
    · by_cases hB : containsB qw fw = true
      · rw [if_neg hA, if_pos hB, if_neg hA, if_pos hB]
        simp only [List.map_cons, List.foldr_cons]
        rw [ih, max_left_comm]
      · rw [if_neg hA, if_neg hB, if_neg hA, if_neg hB]
        rw [max_eq_right (foldr_max_nonneg _), ih]

theorem bestPartial_eq_spec (qw : Str) (l : List Str) :
    bestPartial qw l = specBestPartial qw l := by
  unfold bestPartial specBestPartial
  rw [bestPartial_foldl_general qw l 0 le_rfl,
    max_eq_right (foldr_max_nonneg _), foldr_max_split,
    List.foldr_append, foldr_max_init _ _ (foldr_max_nonneg _)]

theorem matchCounts_split (factWords : List Str) :
    ∀ (qws : List Str) (a : ℕ) (b : ℚ),
      qws.foldl (fun p qw =>
        if factWords.contains qw then (p.1 + 1, p.2)
        else (p.1, p.2 + bestPartial qw factWords)) (a, b) =
      (a + qws.countP (fun qw => factWords.contains qw),
       b + ((qws.filter fun qw => !factWords.contains qw).map
          fun qw => bestPartial qw factWords).sum) := by
  intro qws
  induction qws with
  | nil =>
    intro a b
    simp
  | cons qw t ih =>
    intro a b
    simp only [List.foldl_cons, List.countP_cons, List.filter_cons]
    by_cases hc : factWords.contains qw = true
    · rw [if_pos hc, if_pos hc, ih]
      rw [show (!factWords.contains qw) = false by rw [hc]; rfl]
      simp only [Bool.false_eq_true, if_false]
      refine Prod.ext ?_ rfl
      have hqm : qw ∈ factWords := List.mem_of_elem_eq_true hc
      simp only [Prod.fst]
      simp [hqm]
      omega
    · rw [if_neg hc, if_neg hc, ih]
      rw [show (!factWords.contains qw) = true by rw [Bool.not_eq_true] at hc; rw [hc]; rfl]
      simp only [if_true, List.map_cons, List.sum_cons]
      refine Prod.ext (by simp) ?_
      simp
      ring

theorem matchCounts_eq_spec (qws factWords : List Str) :
    matchCounts qws factWords =
      (qws.countP (fun qw => factWords.contains qw),
       ((qws.filter fun qw => !factWords.contains qw).map
          fun qw => specBestPartial qw factWords).sum) := by
  unfold matchCounts
  rw [matchCounts_split factWords qws 0 0]
  refine Prod.ext (by simp) ?_
  simp only [zero_add]
  exact congrArg List.sum
    (List.map_congr_left fun qw _ => bestPartial_eq_spec qw factWords)

theorem computeRelevance_eq_specBase (fact query : Str) (tags : List Str) :
    computeRelevance fact query tags = specBase fact query tags := by
  simp only [computeRelevance, specBase]
  split
  · rfl
  · split
    · rfl
    · rw [matchCounts_eq_spec]

/-- C3 (amended): the per-memory relevance that `smartSearch` actually
assigns equals the reference scorer amended in two points: (i) scores are
rounded to two decimals before and after the boost pass, and (ii) the
boost fires when some stored tag contains the WHOLE lowercased query as a
substring (not when any single query word does). -/
theorem smartRelevance_eq_specAmended (fact query : Str) (tags : List Str) :
    smartRelevance fact query tags = specRelevanceAmended fact query tags := by
  simp only [smartRelevance, specRelevanceAmended, tagBoost,
    computeRelevance_eq_specBase]

/-- C3 counterexample: for the fact "hello", the query "foo bar" and the
tag list ["foo"], the claim's reference scorer gives 0.55 (the query word
"foo" is a substring of the tag "foo", so it boosts 0.4 by 0.15), while the
code's scorer gives 0.4 (the boost tests the whole query "foo bar" against
the tag, which fails, and the word score is rounded). -/
theorem specRelevance_ne_smartRelevance :
    specRelevance ['h','e','l','l','o'] ['f','o','o',' ','b','a','r']
        [['f','o','o']] ≠
      smartRelevance ['h','e','l','l','o'] ['f','o','o',' ','b','a','r']
        [['f','o','o']] := by
  have hbp : bestPartial ['b','a','r'] [['h','e','l','l','o'], ['f','o','o']]
      = 0 := by
    unfold bestPartial
    simp only [List.foldl_cons, List.foldl_nil]
    rw [show containsB ['h','e','l','l','o'] ['b','a','r'] = false from by decide]
    rw [show containsB ['b','a','r'] ['h','e','l','l','o'] = false from by decide]
    rw [show containsB ['f','o','o'] ['b','a','r'] = false from by decide]
    rw [show containsB ['b','a','r'] ['f','o','o'] = false from by decide]
    simp
  have hmc : matchCounts [['f','o','o'], ['b','a','r']]
      [['h','e','l','l','o'], ['f','o','o']] = (1, 0) := by
    unfold matchCounts
    simp only [List.foldl_cons, List.foldl_nil]
    rw [show ([['h','e','l','l','o'], ['f','o','o']].contains ['f','o','o'])
      = true from by decide]
    rw [show ([['h','e','l','l','o'], ['f','o','o']].contains ['b','a','r'])
      = false from by decide]
    simp [hbp]
  have hcr : computeRelevance ['h','e','l','l','o']
      ['f','o','o',' ','b','a','r'] [['f','o','o']] = 2/5 := by
    simp only [computeRelevance]
    rw [show containsB (lowerStr ['h','e','l','l','o'])
        (lowerStr ['f','o','o',' ','b','a','r']) = false from by decide]
    rw [show splitWords (lowerStr ['f','o','o',' ','b','a','r'])
      = [['f','o','o'], ['b','a','r']] from by decide]
    rw [show splitWords (lowerStr ['h','e','l','l','o'])
      = [['h','e','l','l','o']] from by decide]
    rw [show [['f','o','o']].map lowerStr = [['f','o','o']] from by decide]
    simp only [Bool.false_eq_true, if_false, List.isEmpty_cons,
      List.cons_append, List.nil_append, hmc]
    norm_num [min_def]
  have hsm : smartRelevance ['h','e','l','l','o'] ['f','o','o',' ','b','a','r']
      [['f','o','o']] = 2/5 := by
    unfold smartRelevance
    rw [show tagBoost [['f','o','o']] ['f','o','o',' ','b','a','r'] = false
      from by decide]
    simp only [Bool.false_eq_true, if_false, hcr]
    norm_num [roundTo2, round_eq]
  have hsp : specRelevance ['h','e','l','l','o'] ['f','o','o',' ','b','a','r']
      [['f','o','o']] = 11/20 := by
    unfold specRelevance
    rw [show (splitWords (lowerStr ['f','o','o',' ','b','a','r'])).any
        (fun qw => [['f','o','o']].any fun t => containsB t qw) = true
      from by decide]
    simp only [if_true]
    rw [← computeRelevance_eq_specBase, hcr]
    norm_num [min_def]
  rw [hsm, hsp]
  norm_num
